import Mathlib

/-!
Shallow embedding of the binary-to-decimal conversion engine of
`src/lib/btod.cpp` (Tarmac Trace Utilities).

A `Bigint` (class `Bigint`, btod.cpp lines 28-89) is represented by its
digit vector: a `List Nat`, least-significant digit first, each entry the
value of one stored `unsigned char` digit.  All C++ arithmetic in this
file stays far below every machine-integer bound (digits reach at most
9*9 + 90 = 171 < 255 during multiplication, carries stay below 10 in
`normalise`), so `Nat` models the machine values exactly.

`Bigint::normalise` ends in `assert(!carry)`.  A failing assertion means
the program has no defined result, so every operation that can reach the
assertion is modelled in the `Option` monad: `none` is exactly an
assertion failure.
-/

namespace Btod

/-- The digit vector of a `Bigint`: least-significant decimal digit first
(btod.cpp line 29). -/
abbrev Digits := List Nat

/-- The numeric value represented by a digit vector. -/
def valB (ds : Digits) : Nat := ds.foldr (fun d acc => d + 10 * acc) 0

/-- Carry propagation of `Bigint::normalise` (btod.cpp 30-39) over the
digits from position `i` upward, with running carry `c`; `none` is the
failure of the final `assert(!carry)`. -/
def normaliseAux : Digits → Nat → Option Digits
  | [], c => if c = 0 then some [] else none
  | d :: ds, c => (normaliseAux ds ((c + d) / 10)).map (fun t => ((c + d) % 10) :: t)

/-- `Bigint::normalise(i)` (btod.cpp 30-39): digits below `i` are left
untouched, digits from `i` upward are carry-propagated. -/
def normaliseAt (ds : Digits) (i : Nat) : Option Digits :=
  (normaliseAux (ds.drop i) 0).map (fun t => ds.take i ++ t)

/-- `Bigint::contract` (btod.cpp 40-46): drop most-significant zero
digits (the end of the LSB-first list). -/
def contract (ds : Digits) : Digits :=
  ((ds.reverse.dropWhile (fun d => d == 0)).reverse)

/-- `Bigint::expand` (btod.cpp 47-51): zero-extend to at least `size`
digit slots.  `Nat` subtraction makes the no-op case exact. -/
def expand (ds : Digits) (size : Nat) : Digits :=
  ds ++ List.replicate (size - ds.length) 0

/-- Decimal digits of a machine integer, least significant first, the
empty list for zero: the `sprintf("%.0llu", val)` loop of the `Bigint`
constructor (btod.cpp 55-62).  The first argument is fuel bounding the
number of divisions; `natDigits` below instantiates it sufficiently. -/
def natDigitsAux : Nat → Nat → Digits
  | 0, _ => []
  | fuel + 1, n => if n = 0 then [] else n % 10 :: natDigitsAux fuel (n / 10)

/-- Decimal digits of `n`, least significant first, `[]` for `0`. -/
def natDigits (n : Nat) : Digits := natDigitsAux n n

/-- `Bigint::Bigint(val, extradigits, filldigit)` (btod.cpp 55-62):
`extradigits` low-order digits of value `filldigit`, then the decimal
digits of `val`. -/
def bigintOf (val : Nat) (extradigits : Nat) (filldigit : Nat) : Digits :=
  List.replicate extradigits filldigit ++ natDigits val

/-- Digit-wise accumulation `digits[i] += rhs[i]` for the indices of
`rhs` (btod.cpp 66-67); the first operand is at least as long wherever
the code uses it. -/
def addInto : Digits → Digits → Digits
  | a, [] => a
  | [], _ => []
  | x :: a, y :: b => (x + y) :: addInto a b

/-- `Bigint::operator+=` (btod.cpp 63-70): expand to `len(rhs) + 1`
slots, add digit-wise, normalise (possibly failing its assertion),
contract. -/
def bigAdd (a b : Digits) : Option Digits :=
  (normaliseAt (addInto (expand a (b.length + 1)) b) 0).map contract

/-- One iteration of the `operator*=` loop at digit position `i`
(btod.cpp 75-81): fetch and clear `digits[i]`, accumulate
`digits[i+j] += rhs[j] * digit`, then `normalise(i)`. -/
def mulStep (rhs ds : Digits) (i : Nat) : Option Digits :=
  let d := ds.getD i 0
  let ds1 := ds.set i 0
  normaliseAt (ds1.take i ++ addInto (ds1.drop i) (rhs.map (fun r => r * d))) i

/-- The `for (size_t i = oldsize; i-- > 0;)` loop of `operator*=`
(btod.cpp 75-81): positions `i-1, i-2, ..., 0` in that order. -/
def mulLoop (rhs : Digits) : Nat → Digits → Option Digits
  | 0, ds => some ds
  | i + 1, ds => (mulStep rhs ds i).bind (mulLoop rhs i)

/-- `Bigint::operator*=` (btod.cpp 71-83): capture the old size, expand
to `len(self) + len(rhs) + 1` slots, run the digit loop, contract. -/
def bigMul (a b : Digits) : Option Digits :=
  (mulLoop b a.length (expand a (a.length + b.length + 1))).map contract

/-- `Bigint::ndigits` (btod.cpp 84). -/
def ndigits (ds : Digits) : Nat := ds.length

/-- `Bigint::digit(int i)` (btod.cpp 85-88): the digit at position `i`,
or `0` when `i` is negative or at or beyond the stored length. -/
def digitAt (ds : Digits) (i : Int) : Nat :=
  if 0 ≤ i ∧ i < (ds.length : Int) then ds.getD i.toNat 0 else 0

/-- The representation invariant of §3 of the specification, as an
executable check: every stored digit is below 10 and the
most-significant stored digit is nonzero (vacuously for the empty
sequence representing zero). -/
def goodB (ds : Digits) : Bool :=
  ds.all (fun d => d < 10) && ds.getLastD 1 != 0

end Btod

namespace Btod

/-- The C++ value `n & -n` on a 32-bit `unsigned` (btod.cpp line 98):
unsigned negation is subtraction from `2^32` modulo `2^32`. -/
def lowbit (n : Nat) : Nat := Nat.land n ((2 ^ 32 - n) % 2 ^ 32)

/-- The recursion of `power_of` (btod.cpp 93-114) stripped of its
memoisation cache, which only ever stores values this same recursion
produced.  The first argument is fuel: every recursive call of the C++
function strictly decreases the (32-bit unsigned) exponent, so fuel `n`
suffices for exponent `n`, which `power_of` below supplies. -/
def powerOfAux (v : Nat) : Nat → Nat → Option Digits
  | fuel + 1, n =>
    let lb := lowbit n
    if n ≠ lb then do
      let a ← powerOfAux v fuel (n - lb)
      let b ← powerOfAux v fuel lb
      bigMul a b
    else if 1 < n then do
      let a ← powerOfAux v fuel (n / 2)
      bigMul a a
    else some (bigintOf (if n = 1 then v else 1) 0 0)
  | 0, n => if n ≤ 1 then some (bigintOf (if n = 1 then v else 1) 0 0) else none

/-- `power_of(v, n)` (btod.cpp 93-114).  The `assert(v == 2 || v == 5)`
is modelled as failure for any other base; the `unsigned n` parameter
reduces its argument modulo `2^32`. -/
def power_of (v : Nat) (n : Nat) : Option Digits :=
  if v = 2 ∨ v = 5 then powerOfAux v (n % 2 ^ 32) (n % 2 ^ 32) else none

/-- The character `'0' + d` (btod.cpp 152, 155). -/
def digitChar (d : Nat) : Char := Char.ofNat (48 + d)

/-- The digit characters of `n`, most significant first, zero-padded on
the left to at least two characters: the digit part of
`sprintf("e%+03d", ...)` (btod.cpp 158). -/
def expDigitsChars (n : Nat) : List Char :=
  let raw := (natDigits n).reverse.map digitChar
  List.replicate (2 - raw.length) '0' ++ raw

/-- The full `sprintf("e%+03d", e)` field (btod.cpp 157-159): `'e'`, a
mandatory sign, and the magnitude zero-padded to at least two digits. -/
def expChars (e : Int) : List Char :=
  'e' :: (if e < 0 then '-' else '+') :: expDigitsChars e.natAbs

/-- The scaling step of `fp_btod` (btod.cpp 120-127): multiply the
mantissa by `2^power2` or `5^(-power2)`, tracking the decimal exponent
adjustment `power10`. -/
def fpScale (mantissa : Nat) (power2 : Int) : Option (Digits × Int) :=
  if 0 < power2 then do
    let p ← power_of 2 power2.toNat
    let v ← bigMul (bigintOf mantissa 0 0) p
    pure (v, 0)
  else if power2 < 0 then do
    let p ← power_of 5 (-power2).toNat
    let v ← bigMul (bigintOf mantissa 0 0) p
    pure (v, power2)
  else pure (bigintOf mantissa 0 0, 0)

/-- The rounding step of `fp_btod` (btod.cpp 143-150): round to nearest
at the digit below the cut, ties to the even retained digit, realised by
adding `5` (padded with zeros) or `4` (padded with nines) at the cut
position. -/
def fpRound (v : Digits) (precision : Nat) : Option Digits :=
  let digitpos : Int := (v.length : Int) - 1
  let cut : Int := digitpos - (precision : Int)
  if 0 ≤ cut then
    if 5 ≤ digitAt v cut then
      if digitAt v (cut + 1) % 2 = 1 then bigAdd v (bigintOf 5 cut.toNat 0)
      else bigAdd v (bigintOf 4 cut.toNat 9)
    else some v
  else some v

/-- The output assembly of `fp_btod` (btod.cpp 152-160): leading digit,
point, `precision - 1` further digits (reading `0` beyond the stored
digits), then the exponent field, whose value is forced to `0` when the
digit vector is empty. -/
def fpFormat (v : Digits) (digitpos : Int) (power10 : Int) (precision : Nat) : String :=
  String.mk (digitChar (digitAt v digitpos) :: '.' ::
    ((List.range' 1 (precision - 1)).map
        (fun (i : Nat) => digitChar (digitAt v (digitpos - (i : Int)))) ++
      expChars (if v.length = 0 then 0 else power10)))

/-- `fp_btod(mantissa, power2, precision)` (btod.cpp 118-162).  `none`
is a failed `assert(!carry)` during the rounding addition. -/
def fp_btod (mantissa : Nat) (power2 : Int) (precision : Nat) : Option String := do
  let s ← fpScale mantissa power2
  let digitpos : Int := (s.1.length : Int) - 1
  let v2 ← fpRound s.1 precision
  pure (fpFormat v2 digitpos (s.2 + digitpos) precision)

/-- `ieee_btod(val, ebits, mbits, digits)` (btod.cpp 164-180): split the
bit pattern into sign, biased exponent and mantissa field; all-ones
exponent yields `NaN`/`Inf`; a nonzero exponent restores the implicit
leading bit; then convert with the unbiased binary exponent. -/
def ieee_btod (val ebits mbits digits : Nat) : Option String :=
  let sign : String := if Nat.land val (Nat.shiftLeft 1 (ebits + mbits)) ≠ 0 then "-" else " "
  let e0 := Nat.land (Nat.shiftRight val mbits) (2 ^ ebits - 1)
  let m0 := Nat.land val (2 ^ mbits - 1)
  if e0 = 2 ^ ebits - 1 then some (sign ++ (if m0 ≠ 0 then "NaN" else "Inf"))
  else
    let m1 := if e0 ≠ 0 then Nat.lor m0 (2 ^ mbits) else m0
    let e1 := if e0 ≠ 0 then e0 - 1 else e0
    let p2 : Int := (e1 : Int) - ((2 ^ (ebits - 1) - 2 + mbits : Nat) : Int)
    (fp_btod m1 p2 digits).map (fun s => sign ++ s)

/-- `float_btod` (btod.cpp 182): the 32-bit entry point; the `unsigned`
parameter reduces modulo `2^32`. -/
def float_btod (val : Nat) : Option String := ieee_btod (val % 2 ^ 32) 8 23 9

/-- `double_btod` (btod.cpp 183-186): the 64-bit entry point. -/
def double_btod (val : Nat) : Option String := ieee_btod (val % 2 ^ 64) 11 52 17

/-- The exponent field of the output grammar of spec §6: `'e'`, a
mandatory `'+'` or `'-'`, and at least two digit characters. -/
def expTail (l : List Char) : Bool :=
  match l with
  | 'e' :: sgn :: ds =>
      (sgn == '+' || sgn == '-') && decide (2 ≤ ds.length) &&
        ds.all (fun c => c.isDigit)
  | _ => false

/-- The finite-value body of the output grammar of spec §6: one digit,
`'.'`, exactly `prec - 1` digits, then the exponent field. -/
def finiteBody (prec : Nat) (l : List Char) : Bool :=
  match l with
  | d :: '.' :: rest =>
      d.isDigit && decide (prec - 1 ≤ rest.length) &&
        (rest.take (prec - 1)).all (fun c => c.isDigit) &&
        expTail (rest.drop (prec - 1))
  | _ => false

/-- The full output grammar of spec §6: a sign character, then either a
special token or a finite-value body.  All characters are ASCII. -/
def grammarOk (prec : Nat) (s : String) : Bool :=
  match s.data with
  | c :: rest =>
      (c == ' ' || c == '-') &&
        (rest == ['N', 'a', 'N'] || rest == ['I', 'n', 'f'] || finiteBody prec rest)
  | [] => false

set_option maxRecDepth 20000

/-! ### Values of digit vectors -/

theorem valB_nil : valB [] = 0 := rfl

theorem valB_cons (d : Nat) (ds : Digits) : valB (d :: ds) = d + 10 * valB ds := rfl

theorem valB_append (xs ys : Digits) :
    valB (xs ++ ys) = valB xs + 10 ^ xs.length * valB ys := by
  induction xs with
  | nil => simp [valB_nil]
  | cons d xs ih =>
    simp only [List.cons_append, valB_cons, ih, List.length_cons, pow_succ]
    ring

theorem valB_replicate_zero (k : Nat) : valB (List.replicate k 0) = 0 := by
  induction k with
  | zero => rfl
  | succ k ih => simp [List.replicate_succ, valB_cons, ih]

theorem valB_lt (ds : Digits) (h : ∀ d ∈ ds, d < 10) : valB ds < 10 ^ ds.length := by
  induction ds with
  | nil => simp [valB_nil]
  | cons d ds ih =>
    have hd : d < 10 := h d (List.mem_cons_self d ds)
    have hv : valB ds < 10 ^ ds.length := ih (fun x hx => h x (List.mem_cons_of_mem d hx))
    simp only [valB_cons, List.length_cons, pow_succ]
    omega

/-! ### `normalise` -/

theorem normAux_isSome_iff (ds : Digits) (c : Nat) :
    (normaliseAux ds c).isSome ↔ c + valB ds < 10 ^ ds.length := by
  induction ds generalizing c with
  | nil =>
    simp only [normaliseAux, valB_nil, List.length_nil, pow_zero]
    split <;> simp <;> omega
  | cons d ds ih =>
    simp only [normaliseAux, Option.isSome_map', ih, valB_cons, List.length_cons, pow_succ]
    have hq := Nat.div_add_mod (c + d) 10
    have hr : (c + d) % 10 < 10 := Nat.mod_lt _ (by norm_num)
    constructor <;> intro hlt <;> omega

theorem normAux_spec (ds : Digits) (c : Nat) (t : Digits)
    (h : normaliseAux ds c = some t) :
    valB t = c + valB ds ∧ t.length = ds.length ∧ ∀ d ∈ t, d < 10 := by
  induction ds generalizing c t with
  | nil =>
    simp only [normaliseAux] at h
    split at h
    · cases h
      simp_all [valB_nil]
    · cases h
  | cons d ds ih =>
    simp only [normaliseAux, Option.map_eq_some'] at h
    obtain ⟨t', ht', rfl⟩ := h
    obtain ⟨hv, hl, hd⟩ := ih _ _ ht'
    refine ⟨?_, by simp [hl], ?_⟩
    · have hq := Nat.div_add_mod (c + d) 10
      simp only [valB_cons, hv]
      omega
    · intro x hx
      rcases List.mem_cons.mp hx with rfl | hx
      · exact Nat.mod_lt _ (by norm_num)
      · exact hd x hx

theorem normaliseAt_zero (ds : Digits) : normaliseAt ds 0 = normaliseAux ds 0 := by
  simp [normaliseAt]

/-! ### `contract` -/

theorem contract_sublist (ds : Digits) : List.Sublist (contract ds) ds := by
  have h := (List.dropWhile_sublist (l := ds.reverse) (fun d => d == 0)).reverse
  simpa [contract] using h

theorem contract_split (ds : Digits) :
    ∃ k, ds = contract ds ++ List.replicate k 0 := by
  refine ⟨(ds.reverse.takeWhile (fun d => d == 0)).length, ?_⟩
  have h0 : ∀ x ∈ ds.reverse.takeWhile (fun d => d == 0), x = 0 := by
    intro x hx
    have := List.mem_takeWhile_imp hx
    simpa using this
  have hrep := List.eq_replicate_of_mem h0
  calc ds = ds.reverse.reverse := (List.reverse_reverse ds).symm
    _ = ((ds.reverse.takeWhile (fun d => d == 0)) ++
          (ds.reverse.dropWhile (fun d => d == 0))).reverse := by
        rw [List.takeWhile_append_dropWhile]
    _ = contract ds ++ (ds.reverse.takeWhile (fun d => d == 0)).reverse := by
        rw [List.reverse_append]; rfl
    _ = contract ds ++ List.replicate (ds.reverse.takeWhile (fun d => d == 0)).length 0 := by
        rw [hrep, List.reverse_replicate]
        simp

theorem valB_contract (ds : Digits) : valB (contract ds) = valB ds := by
  obtain ⟨k, hk⟩ := contract_split ds
  conv_rhs => rw [hk]
  simp [valB_append, valB_replicate_zero]

theorem contract_getLastD (ds : Digits) : (contract ds).getLastD 1 ≠ 0 := by
  have hh : (contract ds).getLast? = ((ds.reverse.dropWhile (fun d => d == 0)).head?) := by
    simp [contract]
  have hnot := List.head?_dropWhile_not (fun d => d == 0) ds.reverse
  rw [List.getLastD_eq_getLast?, hh]
  rcases hhead : (ds.reverse.dropWhile (fun d => d == 0)).head? with _ | x
  · simp
  · rw [hhead] at hnot
    simpa using hnot

theorem contract_digits_lt (ds : Digits) (h : ∀ d ∈ ds, d < 10) :
    ∀ d ∈ contract ds, d < 10 :=
  fun d hd => h d ((contract_sublist ds).mem hd)

/-! ### `expand` and digit-wise addition -/

theorem expand_length (ds : Digits) (n : Nat) :
    (expand ds n).length = max ds.length n := by
  simp [expand]
  omega

theorem valB_expand (ds : Digits) (n : Nat) : valB (expand ds n) = valB ds := by
  simp [expand, valB_append, valB_replicate_zero]

theorem addInto_spec :
    ∀ (a b : Digits), b.length ≤ a.length →
      valB (addInto a b) = valB a + valB b ∧ (addInto a b).length = a.length
  | a, [], _ => by simp [addInto, valB_nil]
  | [], y :: b, h => by simp at h
  | x :: a, y :: b, h => by
    have ih := addInto_spec a b (by simpa using h)
    refine ⟨?_, ?_⟩
    · simp only [addInto, valB_cons, ih.1]
      ring
    · simp [addInto, ih.2]

/-! ### The invariant check -/

theorem goodB_eq_true (ds : Digits) :
    goodB ds = true ↔ (∀ d ∈ ds, d < 10) ∧ ds.getLastD 1 ≠ 0 := by
  simp [goodB, List.all_eq_true]

theorem goodB_contract (ds : Digits) (h : ∀ d ∈ ds, d < 10) :
    goodB (contract ds) = true :=
  (goodB_eq_true _).mpr ⟨contract_digits_lt ds h, contract_getLastD ds⟩

/-! ### `operator+=` -/

theorem bigAdd_isSome_iff (a b : Digits) :
    (bigAdd a b).isSome ↔ valB a + valB b < 10 ^ max a.length (b.length + 1) := by
  have hlen : b.length ≤ (expand a (b.length + 1)).length := by
    rw [expand_length]; omega
  have hai := addInto_spec (expand a (b.length + 1)) b hlen
  simp only [bigAdd, normaliseAt_zero, Option.isSome_map', normAux_isSome_iff,
    Nat.zero_add, hai.1, hai.2, valB_expand, expand_length]

theorem bigAdd_spec (a b t : Digits) (h : bigAdd a b = some t) :
    valB t = valB a + valB b ∧ goodB t = true := by
  simp only [bigAdd, normaliseAt_zero, Option.map_eq_some'] at h
  obtain ⟨u, hu, rfl⟩ := h
  obtain ⟨hv, _, hd⟩ := normAux_spec _ _ _ hu
  have hlen : b.length ≤ (expand a (b.length + 1)).length := by
    rw [expand_length]; omega
  have hai := addInto_spec (expand a (b.length + 1)) b hlen
  refine ⟨?_, goodB_contract _ hd⟩
  rw [valB_contract, hv, hai.1, valB_expand]
  omega

/-! ### `operator*=` -/

theorem valB_map_mul (x : Nat) (ds : Digits) :
    valB (ds.map (fun r => r * x)) = valB ds * x := by
  induction ds with
  | nil => simp [valB_nil]
  | cons d ds ih =>
    simp only [List.map_cons, valB_cons, ih]
    ring

theorem getD_append_self (pre : Digits) (x : Nat) (post : Digits) :
    (pre ++ x :: post).getD pre.length 0 = x := by
  induction pre with
  | nil => rfl
  | cons a pre ih => simpa using ih

theorem mulStep_decomp (rhs pre : Digits) (x : Nat) (post : Digits) :
    mulStep rhs (pre ++ x :: post) pre.length =
      (normaliseAux (addInto (0 :: post) (rhs.map (fun r => r * x))) 0).map
        (fun t => pre ++ t) := by
  have hset : (pre ++ x :: post).set pre.length 0 = pre ++ 0 :: post := by
    rw [List.set_append_right _ _ (Nat.le_refl _), Nat.sub_self]
    rfl
  simp only [mulStep, getD_append_self, hset]
  rw [List.take_left, List.drop_left]
  unfold normaliseAt
  rw [List.drop_left, List.take_left]

theorem mulLoop_spec :
    ∀ (i : Nat) (self rhs w : Digits),
      i ≤ self.length → (∀ d ∈ self, d < 10) → (∀ d ∈ rhs, d < 10) →
      (∀ d ∈ w, d < 10) →
      w.length = self.length + rhs.length + 1 - i →
      valB w = valB (self.drop i) * valB rhs →
      ∃ out, mulLoop rhs i (self.take i ++ w) = some out ∧
        valB out = valB self * valB rhs ∧ ∀ d ∈ out, d < 10
  | 0, self, rhs, w, _, _, _, hw, _, hval => by
    refine ⟨w, by simp [mulLoop], ?_, hw⟩
    simpa using hval
  | i + 1, self, rhs, w, hi, hself, hrhs, hw, hwlen, hval => by
    have hilt : i < self.length := hi
    have htake : self.take (i + 1) = self.take i ++ [self[i]] := by
      rw [List.take_succ, List.getElem?_eq_getElem hilt]
      rfl
    have htakelen : (self.take i).length = i := by
      simp [Nat.le_of_lt hilt]
    have hdropi : self.drop i = self[i] :: self.drop (i + 1) :=
      List.drop_eq_getElem_cons hilt
    -- the accumulated segment before renormalisation
    set u := addInto (0 :: w) (rhs.map (fun r => r * self[i])) with hu
    have hrlen : (rhs.map (fun r => r * self[i])).length ≤ (0 :: w).length := by
      simp only [List.length_map, List.length_cons, hwlen]
      omega
    have hus := addInto_spec (0 :: w) (rhs.map (fun r => r * self[i])) hrlen
    have huval : valB u = valB (self.drop i) * valB rhs := by
      rw [hu, hus.1, valB_map_mul, valB_cons, hdropi, valB_cons, hval]
      ring
    have hulen : u.length = self.length + rhs.length + 1 - i := by
      rw [hu, hus.2]
      simp only [List.length_cons, hwlen]
      omega
    have hubound : valB u < 10 ^ u.length := by
      rw [huval, hulen]
      have h1 : valB (self.drop i) < 10 ^ (self.length - i) := by
        have := valB_lt (self.drop i) (fun d hd => hself d (List.mem_of_mem_drop hd))
        simpa using this
      have h2 : valB rhs < 10 ^ rhs.length := valB_lt rhs hrhs
      calc valB (self.drop i) * valB rhs
          < 10 ^ (self.length - i) * 10 ^ rhs.length :=
            Nat.mul_lt_mul_of_lt_of_le h1 (Nat.le_of_lt h2)
              (Nat.pos_pow_of_pos _ (by norm_num))
        _ = 10 ^ (self.length - i + rhs.length) := (pow_add 10 _ _).symm
        _ ≤ 10 ^ (self.length + rhs.length + 1 - i) := by
            apply Nat.pow_le_pow_right (by norm_num)
            omega
    obtain ⟨w1, hw1⟩ := Option.isSome_iff_exists.mp ((normAux_isSome_iff u 0).mpr (by omega))
    obtain ⟨hw1v, hw1l, hw1d⟩ := normAux_spec _ _ _ hw1
    have hstate : self.take (i + 1) ++ w = self.take i ++ self[i] :: w := by
      rw [htake, List.append_assoc]
      rfl
    have hstep : mulStep rhs (self.take (i + 1) ++ w) i = some (self.take i ++ w1) := by
      have hd := mulStep_decomp rhs (self.take i) self[i] w
      rw [htakelen] at hd
      rw [hstate, hd, hw1]
      rfl
    obtain ⟨out, hout, houtv, houtd⟩ :=
      mulLoop_spec i self rhs w1 (Nat.le_of_lt hilt) hself hrhs hw1d
        (by rw [hw1l]; exact hulen)
        (by rw [hw1v, huval]; exact Nat.zero_add _)
    refine ⟨out, ?_, houtv, houtd⟩
    show (mulStep rhs (self.take (i + 1) ++ w) i).bind (mulLoop rhs i) = some out
    rw [hstep, Option.some_bind]
    exact hout

theorem bigMul_spec (a b : Digits) (ha : ∀ d ∈ a, d < 10) (hb : ∀ d ∈ b, d < 10) :
    ∃ out, bigMul a b = some out ∧ valB out = valB a * valB b ∧ goodB out = true := by
  have hexp : expand a (a.length + b.length + 1) =
      a.take a.length ++ List.replicate (b.length + 1) 0 := by
    rw [List.take_length]
    unfold expand
    have h : a.length + b.length + 1 - a.length = b.length + 1 := by omega
    rw [h]
  obtain ⟨out, hout, houtv, houtd⟩ :=
    mulLoop_spec a.length a b (List.replicate (b.length + 1) 0) (Nat.le_refl _) ha hb
      (by intro d hd; rw [List.eq_of_mem_replicate hd]; norm_num)
      (by rw [List.length_replicate]; omega)
      (by rw [valB_replicate_zero, List.drop_length, valB_nil, Nat.zero_mul])
  refine ⟨contract out, ?_, ?_, goodB_contract out houtd⟩
  · rw [bigMul, hexp, hout]
    rfl
  · rw [valB_contract]
    exact houtv

/-! ### The `Bigint` constructor -/

theorem natDigitsAux_zero (fuel : Nat) : natDigitsAux fuel 0 = [] := by
  cases fuel <;> rfl

theorem natDigitsAux_spec :
    ∀ (fuel n : Nat), n ≤ fuel →
      valB (natDigitsAux fuel n) = n ∧ (∀ d ∈ natDigitsAux fuel n, d < 10) ∧
        (n ≠ 0 → (natDigitsAux fuel n).getLastD 1 ≠ 0)
  | 0, n, h => by
    have hn : n = 0 := Nat.le_zero.mp h
    subst hn
    exact ⟨rfl, by simp [natDigitsAux], fun h => absurd rfl h⟩
  | fuel + 1, n, h => by
    by_cases hn : n = 0
    · subst hn
      exact ⟨rfl, by simp [natDigitsAux], fun h => absurd rfl h⟩
    · have hrec : n / 10 ≤ fuel := by
        have hlt : n / 10 < n := Nat.div_lt_self (Nat.pos_of_ne_zero hn) (by norm_num)
        omega
      obtain ⟨ihv, ihd, ihl⟩ := natDigitsAux_spec fuel (n / 10) hrec
      have hunf : natDigitsAux (fuel + 1) n = n % 10 :: natDigitsAux fuel (n / 10) := by
        simp [natDigitsAux, hn]
      refine ⟨?_, ?_, ?_⟩
      · rw [hunf, valB_cons, ihv]
        omega
      · intro d hd
        rw [hunf] at hd
        rcases List.mem_cons.mp hd with rfl | hd
        · exact Nat.mod_lt _ (by norm_num)
        · exact ihd d hd
      · intro _
        rw [hunf]
        by_cases hq : n / 10 = 0
        · rw [hq, natDigitsAux_zero]
          have hmod : n % 10 = n := Nat.mod_eq_of_lt (by omega)
          simp [hmod, hn]
        · have hne : natDigitsAux fuel (n / 10) ≠ [] := by
            intro hnil
            rw [hnil] at ihv
            exact hq (by simpa [valB_nil] using ihv.symm)
          rcases hmatch : natDigitsAux fuel (n / 10) with _ | ⟨a, l⟩
          · exact absurd hmatch hne
          · rw [hmatch] at ihl
            simpa using ihl hq

theorem natDigits_spec (n : Nat) :
    valB (natDigits n) = n ∧ (∀ d ∈ natDigits n, d < 10) ∧
      (n ≠ 0 → (natDigits n).getLastD 1 ≠ 0) :=
  natDigitsAux_spec n n (Nat.le_refl n)

theorem valB_bigintOf_plain (v : Nat) : valB (bigintOf v 0 0) = v := by
  simpa [bigintOf] using (natDigits_spec v).1

theorem goodB_bigintOf (v e f : Nat) (hf : f < 10)
    (h : v ≠ 0 ∨ e = 0 ∨ f ≠ 0) : goodB (bigintOf v e f) = true := by
  rw [goodB_eq_true]
  obtain ⟨hv, hd, hl⟩ := natDigits_spec v
  constructor
  · intro d hd2
    rcases List.mem_append.mp hd2 with hd2 | hd2
    · rw [List.eq_of_mem_replicate hd2]; exact hf
    · exact hd d hd2
  · by_cases hv0 : v = 0
    · subst hv0
      have hnil : natDigits 0 = [] := rfl
      rcases h with h | h | h
      · exact absurd rfl h
      · subst h
        simp [bigintOf, hnil]
      · rcases e with _ | e
        · simp [bigintOf, hnil]
        · rw [bigintOf, hnil, List.append_nil, List.replicate_succ' ]
          simpa using h
    · have hne : natDigits v ≠ [] := by
        intro hnil
        rw [hnil] at hv
        exact hv0 (by simpa [valB_nil] using hv.symm)
      obtain ⟨x, hx⟩ := Option.isSome_iff_exists.mp
        ((List.getLast?_isSome (l := natDigits v)).mpr hne)
      have hlast := hl hv0
      rw [List.getLastD_eq_getLast?, hx] at hlast
      rw [bigintOf, List.getLastD_eq_getLast?, List.getLast?_append, hx]
      simpa using hlast

/-! ### `lowbit` and `power_of` -/

theorem land_shiftLeft (a b k : Nat) :
    Nat.land (a <<< k) (b <<< k) = (Nat.land a b) <<< k := by
  apply Nat.eq_of_testBit_eq
  intro i
  show ((a <<< k) &&& (b <<< k)).testBit i = ((a &&& b) <<< k).testBit i
  simp only [Nat.testBit_and, Nat.testBit_shiftLeft]
  cases hk : decide (k ≤ i) <;> cases hx : (a.testBit (i - k)) <;> simp [hk, hx]

theorem land_odd_complement (j t : Nat) (hj : 2 * t + 1 < 2 ^ j) :
    Nat.land (2 * t + 1) (2 ^ j - (2 * t + 1)) = 1 := by
  have hj1 : 0 < j := by
    rcases Nat.eq_zero_or_pos j with rfl | h
    · rw [pow_zero] at hj
      omega
    · exact h
  apply Nat.eq_of_testBit_eq
  intro i
  show ((2 * t + 1) &&& (2 ^ j - (2 * t + 1))).testBit i = Nat.testBit 1 i
  have hsub : (2 ^ j - (2 * t + 1)).testBit i = (decide (i < j) && ! (2 * t).testBit i) :=
    Nat.testBit_two_pow_sub_succ (by omega) i
  have hone : Nat.testBit 1 i = decide (0 = i) := by
    rw [show (1 : Nat) = 2 ^ 0 from rfl, Nat.testBit_two_pow]
  rw [Nat.testBit_and, hsub, hone]
  cases i with
  | zero =>
    have ha : (2 * t + 1).testBit 0 = true := by
      simp only [Nat.testBit_zero, decide_eq_true_eq]
      omega
    have hb : (2 * t).testBit 0 = false := by
      simp only [Nat.testBit_zero, decide_eq_false_iff_not]
      omega
    simp [ha, hb, hj1]
  | succ i =>
    have ha : (2 * t + 1).testBit (i + 1) = t.testBit i := by
      rw [Nat.testBit_succ]
      congr 1
      omega
    have hb : (2 * t).testBit (i + 1) = t.testBit i := by
      rw [Nat.testBit_succ]
      congr 1
      omega
    rw [ha, hb]
    cases hx : t.testBit i <;> simp [hx]

theorem lowbit_spec (n : Nat) (h0 : 0 < n) (h32 : n < 2 ^ 32) :
    ∃ k, lowbit n = 2 ^ k ∧ 2 ^ k ∣ n := by
  obtain ⟨k, m, hm, hn⟩ := Nat.exists_eq_two_pow_mul_odd (Nat.pos_iff_ne_zero.mp h0)
  obtain ⟨t, ht⟩ := hm
  refine ⟨k, ?_, ⟨m, hn⟩⟩
  have hmpos : 0 < m := by omega
  have hkle : 2 ^ k ≤ n := by
    rw [hn]
    exact Nat.le_mul_of_pos_right _ hmpos
  have hk32 : k < 32 := by
    have h2 : (2 : Nat) ^ k < 2 ^ 32 := Nat.lt_of_le_of_lt hkle h32
    exact (Nat.pow_lt_pow_iff_right (by norm_num)).mp h2
  have hksub : k + (32 - k) = 32 := by omega
  have hpow : (2 : Nat) ^ 32 = 2 ^ k * 2 ^ (32 - k) := by
    rw [← pow_add, hksub]
  have hmlt : m < 2 ^ (32 - k) := by
    have := h32
    rw [hn, hpow] at this
    exact Nat.lt_of_mul_lt_mul_left this
  have hfac : 2 ^ 32 - n = 2 ^ k * (2 ^ (32 - k) - m) := by
    rw [hn, hpow, ← Nat.mul_sub]
  have hmod : (2 ^ 32 - n) % 2 ^ 32 = 2 ^ 32 - n := by
    apply Nat.mod_eq_of_lt
    omega
  have hshift : ∀ x : Nat, 2 ^ k * x = x <<< k := by
    intro x
    rw [Nat.shiftLeft_eq]
    ring
  rw [lowbit, hmod, hfac, hn, hshift m, hshift (2 ^ (32 - k) - m), land_shiftLeft]
  rw [ht] at hmlt ⊢
  rw [land_odd_complement (32 - k) t hmlt, Nat.shiftLeft_eq, Nat.one_mul]

theorem lowbit_le (n : Nat) : lowbit n ≤ n := Nat.and_le_left

theorem powerOfAux_spec (v : Nat) :
    ∀ (fuel n : Nat), n ≤ fuel → n < 2 ^ 32 →
      ∃ out, powerOfAux v fuel n = some out ∧ valB out = v ^ n ∧ goodB out = true
  | 0, n, hle, _ => by
    have hn : n = 0 := Nat.le_zero.mp hle
    subst hn
    refine ⟨bigintOf 1 0 0, rfl, ?_, ?_⟩
    · rw [valB_bigintOf_plain, pow_zero]
    · exact goodB_bigintOf 1 0 0 (by norm_num) (Or.inl (by norm_num))
  | fuel + 1, n, hle, h32 => by
    by_cases hne : n ≠ lowbit n
    · have hn0 : 0 < n := by
        rcases Nat.eq_zero_or_pos n with rfl | h
        · exact absurd rfl hne
        · exact h
      obtain ⟨k, hlb, hdvd⟩ := lowbit_spec n hn0 h32
      have hlbpos : 0 < lowbit n := by rw [hlb]; exact Nat.pos_pow_of_pos _ (by norm_num)
      have hlble : lowbit n ≤ n := lowbit_le n
      have hlblt : lowbit n < n := Nat.lt_of_le_of_ne hlble (fun h => hne h.symm)
      obtain ⟨a, ha, hav, hag⟩ :=
        powerOfAux_spec v fuel (n - lowbit n) (by omega) (by omega)
      obtain ⟨b, hb, hbv, hbg⟩ :=
        powerOfAux_spec v fuel (lowbit n) (by omega) (by omega)
      obtain ⟨c, hc, hcv, hcg⟩ :=
        bigMul_spec a b ((goodB_eq_true a).mp hag).1 ((goodB_eq_true b).mp hbg).1
      refine ⟨c, ?_, ?_, hcg⟩
      · simp only [powerOfAux, if_pos hne, ha, hb]
        exact hc
      · rw [hcv, hav, hbv, ← pow_add]
        congr 1
        omega
    · push_neg at hne
      by_cases h1 : 1 < n
      · have hn0 : 0 < n := by omega
        obtain ⟨k, hlb, _⟩ := lowbit_spec n hn0 h32
        have hnpow : n = 2 ^ k := by rw [hne, hlb]
        have hk0 : k ≠ 0 := by
          intro hk
          rw [hk, pow_zero] at hnpow
          omega
        have heven : n % 2 = 0 := by
          rw [hnpow]
          rcases k with _ | k
          · exact absurd rfl hk0
          · simp [pow_succ, Nat.mul_mod_left]
        obtain ⟨a, ha, hav, hag⟩ :=
          powerOfAux_spec v fuel (n / 2)
            (by have hlt : n / 2 < n := Nat.div_lt_self hn0 (by norm_num); omega) (by omega)
        obtain ⟨c, hc, hcv, hcg⟩ :=
          bigMul_spec a a ((goodB_eq_true a).mp hag).1 ((goodB_eq_true a).mp hag).1
        refine ⟨c, ?_, ?_, hcg⟩
        · simp only [powerOfAux, if_neg (by omega : ¬ n ≠ lowbit n), if_pos h1, ha]
          exact hc
        · rw [hcv, hav, ← pow_add]
          congr 1
          omega
      · have hn01 : n ≤ 1 := by omega
        refine ⟨bigintOf (if n = 1 then v else 1) 0 0, ?_, ?_, ?_⟩
        · simp only [powerOfAux, if_neg (by omega : ¬ n ≠ lowbit n), if_neg h1]
        · rw [valB_bigintOf_plain]
          interval_cases n <;> simp
        · exact goodB_bigintOf _ 0 0 (by norm_num) (Or.inr (Or.inl rfl))

theorem power_of_spec (b n : Nat) (hb : b = 2 ∨ b = 5) (hn : n < 2 ^ 32) :
    ∃ ds, power_of b n = some ds ∧ valB ds = b ^ n ∧ goodB ds = true := by
  rw [power_of, if_pos hb, Nat.mod_eq_of_lt hn]
  exact powerOfAux_spec b n n (Nat.le_refl n) hn

/-! ### Digit extraction and size from the numeric value -/

theorem dropWhile_zero_replicate (k : Nat) :
    (List.replicate k 0).dropWhile (fun d : Nat => d == 0) = [] := by
  induction k with
  | zero => rfl
  | succ k ih => simp [List.replicate_succ, List.dropWhile_cons, ih]

theorem contract_replicate_zero (k : Nat) : contract (List.replicate k 0) = [] := by
  rw [contract, List.reverse_replicate, dropWhile_zero_replicate]
  rfl

theorem bigMul_nil (b : Digits) : bigMul [] b = some [] := by
  rw [bigMul]
  show (mulLoop b 0 (expand [] (0 + b.length + 1))).map contract = some []
  rw [show mulLoop b 0 (expand [] (0 + b.length + 1)) =
    some (expand [] (0 + b.length + 1)) from rfl]
  rw [show expand [] (0 + b.length + 1) =
    List.replicate (0 + b.length + 1 - 0) 0 from rfl]
  rw [Option.map_some', contract_replicate_zero]

theorem getD_eq_div_mod (ds : Digits) (h : ∀ d ∈ ds, d < 10) :
    ∀ i, ds.getD i 0 = valB ds / 10 ^ i % 10 := by
  induction ds with
  | nil => intro i; simp [valB_nil]
  | cons d ds ih =>
    intro i
    have hd : d < 10 := h d (List.mem_cons_self d ds)
    have htail : ∀ x ∈ ds, x < 10 := fun x hx => h x (List.mem_cons_of_mem d hx)
    cases i with
    | zero =>
      simp only [List.getD_cons_zero, valB_cons, pow_zero, Nat.div_one]
      omega
    | succ i =>
      have hstep : valB (d :: ds) / 10 ^ (i + 1) = valB ds / 10 ^ i := by
        rw [valB_cons, pow_succ', ← Nat.div_div_eq_div_mul]
        congr 1
        omega
      rw [List.getD_cons_succ, ih htail i, hstep]

theorem le_valB_of_good :
    ∀ ds : Digits, goodB ds = true → ds ≠ [] → 10 ^ (ds.length - 1) ≤ valB ds
  | [], _, hne => absurd rfl hne
  | [d], hg, _ => by
    have hd : d ≠ 0 := by
      have := ((goodB_eq_true [d]).mp hg).2
      simpa using this
    simpa [valB_cons, valB_nil] using Nat.pos_of_ne_zero hd
  | d :: e :: l, hg, _ => by
    have hgt : goodB (e :: l) = true := by
      obtain ⟨h10, hlast⟩ := (goodB_eq_true (d :: e :: l)).mp hg
      refine (goodB_eq_true (e :: l)).mpr ⟨?_, ?_⟩
      · exact fun x hx => h10 x (List.mem_cons_of_mem d hx)
      · simpa [List.getLastD_cons] using hlast
    have ih := le_valB_of_good (e :: l) hgt (by simp)
    have hlen : (d :: e :: l).length - 1 = ((e :: l).length - 1) + 1 := by
      simp
    rw [hlen, valB_cons, pow_succ']
    have h2 : 10 * 10 ^ ((e :: l).length - 1) ≤ 10 * valB (e :: l) :=
      Nat.mul_le_mul_left 10 ih
    omega

theorem length_eq_of_valB (ds : Digits) (L : Nat) (hg : goodB ds = true)
    (hlo : 10 ^ (L - 1) ≤ valB ds) (hhi : valB ds < 10 ^ L) (hL : 0 < L) :
    ds.length = L := by
  have h10 := ((goodB_eq_true ds).mp hg).1
  have hub := valB_lt ds h10
  by_cases hne : ds = []
  · subst hne
    rw [valB_nil] at hlo
    have : (0 : Nat) < 10 ^ (L - 1) := Nat.pos_pow_of_pos _ (by norm_num)
    omega
  · have hlb := le_valB_of_good ds hg hne
    by_contra hneq
    rcases Nat.lt_or_ge ds.length L with hlt | hge
    · have : valB ds < 10 ^ (L - 1) := by
        calc valB ds < 10 ^ ds.length := hub
          _ ≤ 10 ^ (L - 1) := Nat.pow_le_pow_right (by norm_num) (by omega)
      omega
    · have hgt : L < ds.length := by omega
      have : 10 ^ L ≤ valB ds := by
        calc (10 : Nat) ^ L ≤ 10 ^ (ds.length - 1) :=
              Nat.pow_le_pow_right (by norm_num) (by omega)
          _ ≤ valB ds := hlb
      omega

theorem valB_bigintOf_fill0 (v e : Nat) : valB (bigintOf v e 0) = 10 ^ e * v := by
  rw [bigintOf, valB_append, valB_replicate_zero, List.length_replicate,
    (natDigits_spec v).1]
  omega

theorem digitAt_toNat (ds : Digits) (h : ∀ d ∈ ds, d < 10) (i : Nat)
    (hi : i < ds.length) : digitAt ds (i : Int) = valB ds / 10 ^ i % 10 := by
  rw [digitAt, if_pos (by constructor <;> omega), Int.toNat_ofNat, getD_eq_div_mod ds h]

/-! ### The conversion driver on concrete inputs -/

theorem digitAt_nil (i : Int) : digitAt [] i = 0 := by
  rw [digitAt, if_neg]
  intro h
  obtain ⟨h1, h2⟩ := h
  simp at h2
  omega

theorem fp_btod_eq (m : Nat) (p2 : Int) (prec : Nat) (v : Digits) (pw : Int)
    (hs : fpScale m p2 = some (v, pw)) :
    fp_btod m p2 prec = (fpRound v prec).bind
      (fun v2 => some (fpFormat v2 ((v.length : Int) - 1)
        (pw + ((v.length : Int) - 1)) prec)) := by
  simp only [fp_btod, hs, Option.bind_eq_bind, Option.some_bind, Option.pure_def]

theorem fpRound_round_up (v : Digits) (prec cut : Nat)
    (hlen : v.length = cut + prec + 1)
    (h5 : 5 ≤ digitAt v (cut : Int))
    (hodd : digitAt v ((cut : Int) + 1) % 2 = 1) :
    fpRound v prec = bigAdd v (bigintOf 5 cut 0) := by
  have hc : ((v.length : Int) - 1) - (prec : Int) = (cut : Int) := by
    rw [hlen]; push_cast; ring
  simp only [fpRound, hc]
  rw [if_pos (Int.natCast_nonneg cut), if_pos h5, if_pos hodd, Int.toNat_ofNat]

/-- The carry-overflow input: `0x19416d9a` decodes to mantissa
`12676506` and binary exponent `-100`; the value `12676506 * 5^100` has
77 digits, of which the top nine are all `9` and the tenth is `8`, so
the rounding addition carries past the most significant digit and the
`assert(!carry)` in `Bigint::normalise` fails. -/
theorem fp_btod_cex_aux : fp_btod 12676506 (-100) 9 = none := by
  obtain ⟨p, hp, hpv, hpg⟩ := power_of_spec 5 100 (Or.inr rfl) (by norm_num)
  have hm10 : ∀ d ∈ bigintOf 12676506 0 0, d < 10 := by
    intro d hd
    exact (natDigits_spec 12676506).2.1 d (by simpa [bigintOf] using hd)
  obtain ⟨v, hv, hvv, hvg⟩ :=
    bigMul_spec (bigintOf 12676506 0 0) p hm10 ((goodB_eq_true p).mp hpg).1
  have hN : valB v = 12676506 * 5 ^ 100 := by
    rw [hvv, valB_bigintOf_plain, hpv]
  have hlen : v.length = 77 := by
    apply length_eq_of_valB v 77 hvg
    · rw [hN]; decide
    · rw [hN]; decide
    · norm_num
  have hsc : fpScale 12676506 (-100) = some (v, -100) := by
    rw [fpScale, if_neg (by norm_num : ¬ (0 : Int) < -100),
      if_pos (by norm_num : (-100 : Int) < 0)]
    rw [show (-(-100 : Int)).toNat = 100 from by decide, hp]
    simp only [Option.bind_eq_bind, Option.some_bind]
    rw [hv]
    simp only [Option.some_bind, Option.pure_def]
  have h10v : ∀ d ∈ v, d < 10 := ((goodB_eq_true v).mp hvg).1
  have hd67 : digitAt v ((67 : Nat) : Int) = 8 := by
    rw [digitAt_toNat v h10v 67 (by omega), hN]
    decide
  have hd68 : digitAt v ((68 : Nat) : Int) = 9 := by
    rw [digitAt_toNat v h10v 68 (by omega), hN]
    decide
  have hrnd : fpRound v 9 = bigAdd v (bigintOf 5 67 0) := by
    apply fpRound_round_up v 9 67 (by omega)
    · rw [hd67]; norm_num
    · rw [show ((67 : Nat) : Int) + 1 = ((68 : Nat) : Int) from by norm_num, hd68]
  have hblen : (bigintOf 5 67 0).length = 68 := by decide
  have hadd : bigAdd v (bigintOf 5 67 0) = none := by
    have hiff := bigAdd_isSome_iff v (bigintOf 5 67 0)
    rw [hN, valB_bigintOf_fill0, hlen, hblen] at hiff
    have hlt : ¬ (12676506 * 5 ^ 100 + 10 ^ 67 * 5 < 10 ^ max 77 (68 + 1)) := by decide
    exact Option.not_isSome_iff_eq_none.mp (fun hsome => hlt (hiff.mp hsome))
  rw [fp_btod_eq 12676506 (-100) 9 v (-100) hsc, hrnd, hadd]
  rfl

theorem float_btod_cex_aux : float_btod 0x19416d9a = none := by
  have hdec : float_btod 0x19416d9a =
      (fp_btod 12676506 (-100) 9).map (fun s => " " ++ s) := rfl
  rw [hdec, fp_btod_cex_aux]
  rfl

theorem float_btod_zero_aux : float_btod 0 = some " 0.00000000e+00" := by
  obtain ⟨p, hp, _, _⟩ := power_of_spec 5 149 (Or.inr rfl) (by norm_num)
  have hsc : fpScale 0 (-149) = some ([], -149) := by
    rw [fpScale, if_neg (by norm_num : ¬ (0 : Int) < -149),
      if_pos (by norm_num : (-149 : Int) < 0)]
    rw [show (-(-149 : Int)).toNat = 149 from by decide, hp]
    simp only [Option.bind_eq_bind, Option.some_bind]
    rw [show bigintOf 0 0 0 = ([] : Digits) from rfl, bigMul_nil]
    simp only [Option.some_bind, Option.pure_def]
  have hdec : float_btod 0 = (fp_btod 0 (-149) 9).map (fun s => " " ++ s) := rfl
  rw [hdec, fp_btod_eq 0 (-149) 9 [] (-149) hsc]
  rfl

theorem fpFormat_empty (dp pw : Int) (prec : Nat) :
    fpFormat [] dp pw prec =
      String.mk ('0' :: '.' :: (List.replicate (prec - 1) '0' ++ ['e', '+', '0', '0'])) := by
  rw [fpFormat, digitAt_nil]
  have hmap : (List.range' 1 (prec - 1)).map
        (fun (i : Nat) => digitChar (digitAt [] (dp - (i : Int)))) =
      List.replicate (prec - 1) '0' := by
    have h := List.eq_replicate_of_mem
      (l := (List.range' 1 (prec - 1)).map
        (fun (i : Nat) => digitChar (digitAt [] (dp - (i : Int)))))
      (a := '0') ?_
    · rw [h, List.length_map, List.length_range']
    · intro x hx
      obtain ⟨i, _, rfl⟩ := List.mem_map.mp hx
      rw [digitAt_nil]
      rfl
  rw [hmap]
  rfl

theorem mulLoop_digits (rhs : Digits) :
    ∀ (i : Nat) (ds u : Digits), mulLoop rhs (i + 1) ds = some u → ∀ d ∈ u, d < 10
  | 0, ds, u, h => by
    rw [mulLoop] at h
    obtain ⟨w, hw, hw2⟩ := Option.bind_eq_some.mp h
    rw [mulLoop] at hw2
    obtain rfl := Option.some.inj hw2
    simp only [mulStep, normaliseAt_zero, List.take_zero, List.drop_zero,
      List.nil_append] at hw
    exact (normAux_spec _ _ _ hw).2.2
  | i + 1, ds, u, h => by
    rw [mulLoop] at h
    obtain ⟨w, hw, hw2⟩ := Option.bind_eq_some.mp h
    exact mulLoop_digits rhs i w u hw2

theorem bigMul_good (a b t : Digits) (h : bigMul a b = some t) : goodB t = true := by
  rw [bigMul] at h
  obtain ⟨u, hu, rfl⟩ := Option.map_eq_some'.mp h
  rcases a with _ | ⟨x, a⟩
  · simp only [List.length_nil] at hu
    rw [mulLoop] at hu
    obtain rfl := Option.some.inj hu
    rw [show expand ([] : Digits) (0 + b.length + 1) =
        List.replicate (0 + b.length + 1) 0 from by simp [expand],
      contract_replicate_zero]
    rfl
  · simp only [List.length_cons] at hu
    exact goodB_contract u (mulLoop_digits b a.length _ u hu)

/-! ### Claim theorems -/

/-- C1: the claim states that for every finite nonzero decoded input the
digits emitted by `fp_btod` are the correctly rounded decimal significand.
It fails on the decoded input (mantissa 12676506, exponent -100,
precision 9), the decoding of the float bit pattern `0x19416d9a`: the
correctly rounded 9-digit result of `12676506 * 2^-100` is
`1.00000000e-23`, but the rounding addition carries past the most
significant digit, the `assert(!carry)` in `Bigint::normalise` fails,
and no digits are produced. -/
theorem fp_btod_rounding_carry_fails : fp_btod 12676506 (-100) 9 = none :=
  fp_btod_cex_aux

/-- C2: the round-trip claim fails at the single-precision bit pattern
`0x19416d9a`: `float_btod` produces no string at all for it (its
internal assertion fails), so no parse of its output can reproduce the
pattern. -/
theorem float_btod_roundtrip_fails : (float_btod 0x19416d9a).isSome = false := by
  rw [float_btod_cex_aux]
  rfl

/-- C3: the claim that every bit pattern produces a defined output and
that the final-carry assertion is unreachable is false: on input
`0x19416d9a` the carry of the rounding addition runs past the most
significant digit and `assert(!carry)` fails, modelled as `none`. -/
theorem float_btod_assertion_reachable : float_btod 0x19416d9a = none :=
  float_btod_cex_aux

/-- C4: the claim that every 32-bit pattern yields a string of the
output grammar fails at `0x19416d9a`, where no output exists at all; on
ordinary inputs such as `0x3f800000` the output does match the
grammar. -/
theorem float_btod_grammar_violated :
    Option.map (grammarOk 9) (float_btod 0x19416d9a) = none ∧
      Option.map (grammarOk 9) (float_btod 0x3f800000) = some true := by
  constructor
  · rw [float_btod_cex_aux]
    rfl
  · decide

/-- C5: for both cached bases and every exponent of the 32-bit unsigned
range, `power_of(b, n)` succeeds and returns a well-formed decimal
`Bigint` whose value is exactly `b ^ n`. -/
theorem power_of_computes_exact_power (b n : Nat) (hb : b = 2 ∨ b = 5)
    (hn : n < 2 ^ 32) :
    ∃ ds, power_of b n = some ds ∧ valB ds = b ^ n ∧ goodB ds = true :=
  power_of_spec b n hb hn

theorem power_of_computes_exact_power_witness :
    (2 = 2 ∨ 2 = 5) ∧ 10 < 2 ^ 32 ∧
      ∃ ds, power_of 2 10 = some ds ∧ valB ds = 2 ^ 10 ∧ goodB ds = true :=
  ⟨Or.inl rfl, by norm_num, power_of_computes_exact_power 2 10 (Or.inl rfl) (by norm_num)⟩

/-- C6 (amended): `add_assign` leaves `self` holding exactly
`value(self) + value(other)` whenever it returns, and it returns exactly
when that sum fits in `max(len(self), len(other) + 1)` digits; when the
sum does not fit, the final-carry consistency check fails, which can
happen even for operands satisfying the digit invariant. -/
theorem add_assign_exact_or_overflow (a b : Digits) :
    ((bigAdd a b).isSome ↔ valB a + valB b < 10 ^ max a.length (b.length + 1)) ∧
      ∀ t, bigAdd a b = some t → valB t = valB a + valB b ∧ goodB t = true :=
  ⟨bigAdd_isSome_iff a b, fun t ht => bigAdd_spec a b t ht⟩

theorem add_assign_exact_or_overflow_witness :
    valB [2, 1] = valB [5] + valB [7] ∧ goodB [2, 1] = true :=
  (add_assign_exact_or_overflow [5] [7]).2 [2, 1] (by decide)

/-- C6 counterexample: both `Bigint(99)` and `Bigint(1)` satisfy the
digit invariant, yet `Bigint(99) += Bigint(1)` ends with a leftover
carry and fails the internal check, refuting "never happens for valid
inputs". -/
theorem add_assign_carry_check_fires_on_valid_input :
    goodB (bigintOf 99 0 0) = true ∧ goodB (bigintOf 1 0 0) = true ∧
      bigAdd (bigintOf 99 0 0) (bigintOf 1 0 0) = none := by decide

/-- C7 (amended): results of successful `add_assign` and `mul_assign`
always satisfy the representation invariant, and out-of-range digit
reads yield 0; a constructed `Bigint` satisfies the invariant provided
its fill digit is a decimal digit and its most significant digit is
nonzero (value nonzero, or no padding, or nonzero fill). -/
theorem bigint_representation_invariant :
    (∀ v e f : Nat, f < 10 → (v ≠ 0 ∨ e = 0 ∨ f ≠ 0) → goodB (bigintOf v e f) = true) ∧
      (∀ a b t : Digits, bigAdd a b = some t → goodB t = true) ∧
      (∀ a b t : Digits, bigMul a b = some t → goodB t = true) ∧
      (∀ (ds : Digits) (i : Int), i < 0 ∨ (ds.length : Int) ≤ i → digitAt ds i = 0) :=
  ⟨goodB_bigintOf, fun a b t ht => (bigAdd_spec a b t ht).2, bigMul_good,
    fun ds i hi => by rw [digitAt, if_neg (by omega)]⟩

theorem bigint_representation_invariant_witness :
    goodB (bigintOf 5 2 0) = true ∧ digitAt [1, 2] (-3) = 0 :=
  ⟨bigint_representation_invariant.1 5 2 0 (by norm_num) (Or.inl (by norm_num)),
    bigint_representation_invariant.2.2.2 [1, 2] (-3) (Or.inl (by norm_num))⟩

/-- C7 counterexample: the constructor `Bigint(0, 1, 0)` produces the
digit sequence `[0]`, whose most significant stored digit is zero, so
not every constructed `Bigint` satisfies the claimed invariant. -/
theorem constructed_bigint_breaks_invariant : goodB (bigintOf 0 1 0) = false := by
  decide

/-- C8: when the scaled-and-rounded value has no stored digits, the
formatted exponent is forced to `+00` whatever the nominally computed
decimal exponent was, and in particular `float_btod 0` prints
`" 0.00000000e+00"`. -/
theorem zero_value_forces_zero_exponent :
    (∀ (dp pw : Int) (prec : Nat),
        fpFormat [] dp pw prec =
          String.mk ('0' :: '.' :: (List.replicate (prec - 1) '0' ++ ['e', '+', '0', '0']))) ∧
      float_btod 0x00000000 = some " 0.00000000e+00" :=
  ⟨fpFormat_empty, float_btod_zero_aux⟩

/-- C9: whenever the biased exponent field is all ones, `ieee_btod`
returns the sign character followed by `"NaN"` for a nonzero mantissa
field and `"Inf"` for a zero one, with no digits. -/
theorem ieee_btod_special_values (val ebits mbits digits : Nat)
    (h : Nat.land (Nat.shiftRight val mbits) (2 ^ ebits - 1) = 2 ^ ebits - 1) :
    ieee_btod val ebits mbits digits =
      some (((if Nat.land val (Nat.shiftLeft 1 (ebits + mbits)) ≠ 0 then "-" else " ") : String) ++
        (if Nat.land val (2 ^ mbits - 1) ≠ 0 then "NaN" else "Inf")) := by
  simp only [ieee_btod, h]
  rw [if_pos trivial]

theorem ieee_btod_special_values_witness : ieee_btod 0x7f800001 8 23 9 = some " NaN" :=
  (ieee_btod_special_values 0x7f800001 8 23 9 (by decide)).trans (by decide)

/-- C10: the recursion of `power_of` is well-founded on the 32-bit
exponent: the lowest set bit of a nonzero exponent is positive and no
larger than the exponent, both recursive arguments `n - lowbit` and
`lowbit` are strictly smaller when `n` has several set bits, and `n / 2`
is strictly smaller when `n` is a power of two above 1. -/
theorem power_of_recursion_decreases (n : Nat) (h0 : 0 < n) (h32 : n < 2 ^ 32) :
    0 < lowbit n ∧ lowbit n ≤ n ∧
      (lowbit n ≠ n → lowbit n < n ∧ n - lowbit n < n) ∧
      (lowbit n = n → 1 < n → n / 2 < n) := by
  obtain ⟨k, hk, _⟩ := lowbit_spec n h0 h32
  have hpos : 0 < lowbit n := by
    rw [hk]
    exact Nat.pos_pow_of_pos _ (by norm_num)
  exact ⟨hpos, lowbit_le n,
    fun hne => ⟨Nat.lt_of_le_of_ne (lowbit_le n) hne, by omega⟩,
    fun _ h1 => Nat.div_lt_self h0 (by norm_num)⟩

theorem power_of_recursion_decreases_witness :
    0 < lowbit 6 ∧ lowbit 6 ≤ 6 ∧ (lowbit 6 ≠ 6 → lowbit 6 < 6 ∧ 6 - lowbit 6 < 6) ∧
      (lowbit 6 = 6 → 1 < 6 → 6 / 2 < 6) :=
  power_of_recursion_decreases 6 (by norm_num) (by norm_num)

end Btod
